import Mathlib

/-
Verification development for the bevy_svg SVG-to-mesh pipeline.

The Rust sources are shallowly embedded as follows.  Floating point
coordinates (f32/f64) are modelled by exact rationals, u8 colour channels
and asset handles by naturals, and buffer indices (u32) by naturals: all
index arithmetic in the sources is length bookkeeping on in-memory vectors,
far below the 2^32 wrap-around point.  Pure Rust functions become Lean
functions; the pull-based iterator of svg.rs is modelled by a function that
drains the iterator over an explicit state record, exactly as
Svg::from_tree consumes it via collect().
-/

namespace BevySvg

/-- A 2D point with exact rational coordinates, modelling lyon's `Point`
(a 2D f32 point). -/
structure Point where
  x : ℚ
  y : ℚ
deriving DecidableEq, Repr

/-- Raw path segments of the decoding library (`usvg::PathSegment`):
move / line / cubic curve / close commands. -/
inductive PathSegment where
  | MoveTo (x y : ℚ)
  | LineTo (x y : ℚ)
  | CurveTo (x1 y1 x2 y2 x y : ℚ)
  | ClosePath
deriving DecidableEq, Repr

/-- Canonical path events (`lyon_path::PathEvent`).  `End` records the last
point, the subpath's first point, and whether the subpath was closed by an
explicit close command. -/
inductive PathEvent where
  | Begin (a : Point)
  | Line (f t : Point)
  | Cubic (f c1 c2 t : Point)
  | End (last first : Point) (close : Bool)
deriving DecidableEq, Repr

/-- Application of the sign-correction matrix `Transform2D::scale(sx, sy)`
to a point: componentwise multiplication. -/
def scalePoint (sc p : Point) : Point :=
  ⟨sc.x * p.x, sc.y * p.y⟩

/-- lyon's `Event::transformed`: applies the transform to every point of the
event (svg.rs line 250 applies it with the iterator's scale matrix). -/
def PathEvent.transformed (sc : Point) : PathEvent → PathEvent
  | .Begin a => .Begin (scalePoint sc a)
  | .Line f t => .Line (scalePoint sc f) (scalePoint sc t)
  | .Cubic f c1 c2 t =>
      .Cubic (scalePoint sc f) (scalePoint sc c1) (scalePoint sc c2) (scalePoint sc t)
  | .End last first close => .End (scalePoint sc last) (scalePoint sc first) close

/-- Recogniser for `End` events. -/
def PathEvent.isEnd : PathEvent → Bool
  | .End _ _ _ => true
  | _ => false

/-- Recogniser for `Begin` events. -/
def PathEvent.isBegin : PathEvent → Bool
  | .Begin _ => true
  | _ => false

/-- Mutable state of `PathConvIter` (svg.rs lines 163-170): previous point,
first point of the current subpath, whether the current subpath still needs
an implicit `End`, and the one-slot deferred event buffer. -/
structure PathConvState where
  prev : Point
  first : Point
  needs_end : Bool
  deferred : Option PathEvent
deriving DecidableEq, Repr

/-- Initial iterator state built by `Convert<PathConvIter> for &usvg::Path`
(svg.rs lines 270-275): both points at the origin, no pending end, no
deferred event. -/
def initState : PathConvState :=
  ⟨⟨0, 0⟩, ⟨0, 0⟩, false, none⟩

/-- Draining `PathConvIter::next` (svg.rs lines 175-251) over a segment
list.  Each step of the Rust iterator first returns a pending deferred
event without touching the segment stream and, crucially, without applying
the scale transform (the early return at line 177 bypasses the
`transformed` call at line 250); this is modelled by the `s.deferred.toList`
prefix, after which the branch states carry an explicit deferred slot.
The branches mirror the Rust match arm for arm, including that the
non-deferred `MoveTo` arm updates only `first` (leaving `prev` and
`needs_end` untouched) and that `ClosePath` resets `prev` to `first`. -/
def pathConvRun (sc : Point) (s : PathConvState) : List PathSegment → List PathEvent
  | [] =>
      s.deferred.toList ++
        (if s.needs_end then [PathEvent.transformed sc (.End s.prev s.first false)] else [])
  | .MoveTo x y :: rest =>
      s.deferred.toList ++
        (if s.needs_end then
          PathEvent.transformed sc (.End s.prev s.first false) ::
            pathConvRun sc ⟨⟨x, y⟩, ⟨x, y⟩, false, some (.Begin ⟨x, y⟩)⟩ rest
        else
          PathEvent.transformed sc (.Begin ⟨x, y⟩) ::
            pathConvRun sc ⟨s.prev, ⟨x, y⟩, s.needs_end, none⟩ rest)
  | .LineTo x y :: rest =>
      s.deferred.toList ++
        (PathEvent.transformed sc (.Line s.prev ⟨x, y⟩) ::
          pathConvRun sc ⟨⟨x, y⟩, s.first, true, none⟩ rest)
  | .CurveTo x1 y1 x2 y2 x y :: rest =>
      s.deferred.toList ++
        (PathEvent.transformed sc (.Cubic s.prev ⟨x1, y1⟩ ⟨x2, y2⟩ ⟨x, y⟩) ::
          pathConvRun sc ⟨⟨x, y⟩, s.first, true, none⟩ rest)
  | .ClosePath :: rest =>
      s.deferred.toList ++
        (PathEvent.transformed sc (.End s.first s.first true) ::
          pathConvRun sc ⟨s.first, s.first, false, none⟩ rest)

/-- A 2D affine transform of the decoding library (`usvg::Transform`
with components a b c d e f), mapping (x, y) to
(a x + c y + e, b x + d y + f). -/
structure Affine2 where
  a : ℚ
  b : ℚ
  c : ℚ
  d : ℚ
  e : ℚ
  f : ℚ
deriving DecidableEq, Repr

/-- Identity transform (`usvg::Transform::default`). -/
def Affine2.id : Affine2 := ⟨1, 0, 0, 1, 0, 0⟩

/-- Composition of affine transforms: `t1.mul t2` applies `t2` first and
then `t1` (usvg's `append`). -/
def Affine2.mul (t1 t2 : Affine2) : Affine2 :=
  ⟨t1.a * t2.a + t1.c * t2.b, t1.b * t2.a + t1.d * t2.b,
   t1.a * t2.c + t1.c * t2.d, t1.b * t2.c + t1.d * t2.d,
   t1.a * t2.e + t1.c * t2.f + t1.e, t1.b * t2.e + t1.d * t2.f + t1.f⟩

/-- The sign-only correction scale built by `Convert<PathConvIter> for
&usvg::Path` (svg.rs lines 278-281) from the path's local transform:
-1 on an axis iff that axis's diagonal component is strictly negative. -/
def pathConvIterScale (t : Affine2) : Point :=
  ⟨if t.a < 0 then -1 else 1, if t.d < 0 then -1 else 1⟩

/-- usvg line cap styles. -/
inductive LineCap where
  | Butt
  | Square
  | Round
deriving DecidableEq, Repr

/-- usvg line join styles. -/
inductive LineJoin where
  | Miter
  | Bevel
  | Round
deriving DecidableEq, Repr

/-- lyon_tessellation line cap styles. -/
inductive LyonLineCap where
  | Butt
  | Square
  | Round
deriving DecidableEq, Repr

/-- lyon_tessellation line join styles. -/
inductive LyonLineJoin where
  | Miter
  | MiterClip
  | Round
  | Bevel
deriving DecidableEq, Repr

/-- usvg paint: a solid colour (u8 channels) or one of the unsupported
paint kinds. -/
inductive Paint where
  | Color (red green blue : ℕ)
  | LinearGradient
  | RadialGradient
  | Pattern
deriving DecidableEq, Repr

/-- An RGBA colour with u8 channels, modelling `bevy::Color` as produced by
`Color::rgba_u8`. -/
abbrev ColorT : Type := ℕ × ℕ × ℕ × ℕ

/-- The colour `Color::default()` used as fallback for gradient or pattern
paints (bevy's default colour is white). -/
def colorDefault : ColorT := (255, 255, 255, 255)

/-- Colour resolution shared by the fill arm of `Svg::from_tree` (svg.rs
lines 103-108) and `Convert<(Color, DrawType)> for &usvg::Stroke` (svg.rs
lines 289-294): a solid paint keeps its channels with the paint's opacity
as alpha, anything else falls back to the default colour. -/
def paintColor (p : Paint) (opacity : ℕ) : ColorT :=
  match p with
  | .Color r g b => (r, g, b, opacity)
  | _ => colorDefault

/-- usvg fill: paint plus opacity (the opacity u8 `to_u8` result). -/
structure FillStyle where
  paint : Paint
  opacity : ℕ
deriving DecidableEq, Repr

/-- usvg stroke: paint, opacity, width and cap/join styles. -/
structure StrokeStyle where
  paint : Paint
  opacity : ℕ
  width : ℚ
  linecap : LineCap
  linejoin : LineJoin
deriving DecidableEq, Repr

/-- lyon `StrokeOptions` as built in svg.rs lines 307-310. -/
structure StrokeOptions where
  tolerance : ℚ
  line_width : ℚ
  line_cap : LyonLineCap
  line_join : LyonLineJoin
deriving DecidableEq, Repr

/-- Cap translation of svg.rs lines 296-300. -/
def capConvert : LineCap → LyonLineCap
  | .Butt => .Butt
  | .Square => .Square
  | .Round => .Round

/-- Join translation of svg.rs lines 301-305. -/
def joinConvert : LineJoin → LyonLineJoin
  | .Miter => .Miter
  | .Bevel => .Bevel
  | .Round => .Round

/-- The draw kind of a descriptor (svg.rs lines 156-160). -/
inductive DrawType where
  | Fill
  | Stroke (opts : StrokeOptions)
deriving DecidableEq, Repr

/-- Recogniser for the fill kind. -/
def DrawType.isFill : DrawType → Bool
  | .Fill => true
  | _ => false

/-- Recogniser for the stroke kind. -/
def DrawType.isStroke : DrawType → Bool
  | .Stroke _ => true
  | _ => false

/-- `Convert<(Color, DrawType)> for &usvg::Stroke` (svg.rs lines 286-313):
resolved colour plus stroke options with fixed tolerance 0.01. -/
def strokeConvert (s : StrokeStyle) : ColorT × DrawType :=
  (paintColor s.paint s.opacity,
   .Stroke ⟨1 / 100, s.width, capConvert s.linecap, joinConvert s.linejoin⟩)

/-- A column of a 4x4 matrix (glam `Vec4`). -/
structure Vec4q where
  x : ℚ
  y : ℚ
  z : ℚ
  w : ℚ
deriving DecidableEq, Repr

/-- A column-major 4x4 matrix (glam `Mat4::from_cols`). -/
structure Mat4 where
  x_axis : Vec4q
  y_axis : Vec4q
  z_axis : Vec4q
  w_axis : Vec4q
deriving DecidableEq, Repr

/-- The absolute-transform matrix built for every path node in
`Svg::from_tree` (svg.rs lines 95-100): the composed 2D affine transform
embedded as a 3D affine matrix with identity Z, with both diagonal
components replaced by their absolute values and the off-diagonal and
translation components carried over unchanged. -/
def absMat4 (t : Affine2) : Mat4 :=
  ⟨⟨|t.a|, t.b, 0, 0⟩, ⟨t.c, |t.d|, 0, 0⟩, ⟨0, 0, 1, 0⟩, ⟨t.e, t.f, 0, 1⟩⟩

/-- A path node of the document tree (`usvg::Path`): local transform,
optional fill, optional stroke, raw segment data. -/
structure UPath where
  transform : Affine2
  fill : Option FillStyle
  stroke : Option StrokeStyle
  data : List PathSegment
deriving DecidableEq, Repr

/-- A document tree node (`usvg::Node`): either a path node or a group
carrying a transform and children.  Other node kinds are ignored by
`Svg::from_tree` exactly like groups without paths. -/
inductive UNode where
  | path (p : UPath)
  | group (transform : Affine2) (children : List UNode)

/-- A path descriptor (svg.rs lines 148-154).  The absolute transform is
kept as the 4x4 matrix handed to `Transform::from_matrix`. -/
structure PathDescriptor where
  segments : List PathEvent
  abs_transform : Mat4
  color : ColorT
  draw_type : DrawType
deriving DecidableEq, Repr

/-- The per-path-node descriptor construction of `Svg::from_tree` (svg.rs
lines 93-127), taking the node's composed absolute transform `t`: a fill
descriptor if the path has a fill, then a stroke descriptor if it has a
stroke.  Both use the sign-corrected event sequence of the normalizer
(`path.convert().collect()`) and the absolute-value matrix. -/
def pathDescriptors (t : Affine2) (p : UPath) : List PathDescriptor :=
  let abs_t := absMat4 t
  let segs := pathConvRun (pathConvIterScale p.transform) initState p.data
  (match p.fill with
   | some fill => [⟨segs, abs_t, paintColor fill.paint fill.opacity, .Fill⟩]
   | none => []) ++
  (match p.stroke with
   | some stroke => [⟨segs, abs_t, (strokeConvert stroke).1, (strokeConvert stroke).2⟩]
   | none => [])

mutual
/-- Document traversal of `Svg::from_tree` (svg.rs line 91,
`tree.root.descendants()` in preorder), with `parent` the composed
transform of the ancestors; a path node's absolute transform composes its
own local transform on top (usvg `abs_transform`). -/
def collectDescriptors (parent : Affine2) : UNode → List PathDescriptor
  | .path p => pathDescriptors (Affine2.mul parent p.transform) p
  | .group t cs => collectDescriptorsList (Affine2.mul parent t) cs

/-- Traversal of a child list in document order. -/
def collectDescriptorsList (parent : Affine2) : List UNode → List PathDescriptor
  | [] => []
  | n :: rest => collectDescriptors parent n ++ collectDescriptorsList parent rest
end

mutual
/-- The path nodes of a tree in preorder (document traversal order),
paired with their composed absolute transforms. -/
def pathsInPreorder (parent : Affine2) : UNode → List (Affine2 × UPath)
  | .path p => [(Affine2.mul parent p.transform, p)]
  | .group t cs => pathsInPreorderList (Affine2.mul parent t) cs

/-- Preorder path nodes of a child list. -/
def pathsInPreorderList (parent : Affine2) : List UNode → List (Affine2 × UPath)
  | [] => []
  | n :: rest => pathsInPreorder parent n ++ pathsInPreorderList parent rest
end

/-- A mesh vertex (vertex_buffer.rs lines 21-24): 3D position and linear
RGBA colour, both exact here. -/
structure Vertex where
  position : ℚ × ℚ × ℚ
  color : ℚ × ℚ × ℚ × ℚ
deriving DecidableEq, Repr

/-- lyon `VertexBuffers<Vertex, u32>`: vertex list plus index list. -/
structure VertexBuffers where
  vertices : List Vertex
  indices : List ℕ
deriving DecidableEq, Repr

/-- `BufferExt::extend_one` (vertex_buffer.rs lines 97-106): append the
item's vertices and its indices shifted by the previous vertex count. -/
def VertexBuffers.extend_one (self item : VertexBuffers) : VertexBuffers :=
  ⟨self.vertices ++ item.vertices,
   self.indices ++ item.indices.map (· + self.vertices.length)⟩

/-- The loop of `BufferExt::extend` (vertex_buffer.rs lines 108-121): the
running offset starts at the accumulator's vertex count and grows by each
merged buffer's vertex count. -/
def extendLoop (offset : ℕ) (acc : VertexBuffers) : List VertexBuffers → VertexBuffers
  | [] => acc
  | buf :: rest =>
      extendLoop (offset + buf.vertices.length)
        ⟨acc.vertices ++ buf.vertices, acc.indices ++ buf.indices.map (· + offset)⟩ rest

/-- `BufferExt::extend` (vertex_buffer.rs lines 108-121). -/
def VertexBuffers.extend (self : VertexBuffers) (bufs : List VertexBuffers) : VertexBuffers :=
  extendLoop self.vertices.length self bufs

/-- Spec-side merge, following the claim's words: the concatenation of all
vertex sequences and of all index sequences, each buffer's indices shifted
by the running total vertex count accumulated so far.  Stated separately
from the code's `extend` so the two can be compared. -/
def shiftedIndices (offset : ℕ) : List VertexBuffers → List ℕ
  | [] => []
  | buf :: rest => buf.indices.map (· + offset) ++ shiftedIndices (offset + buf.vertices.length) rest

/-- Spec-side merged buffer (see `shiftedIndices`). -/
def mergedSpec (acc : VertexBuffers) (bufs : List VertexBuffers) : VertexBuffers :=
  ⟨acc.vertices ++ (bufs.map VertexBuffers.vertices).flatten,
   acc.indices ++ shiftedIndices acc.vertices.length bufs⟩

/-- Well-formedness of a buffer: every index is below the vertex count. -/
def VertexBuffers.wf (b : VertexBuffers) : Prop :=
  ∀ i ∈ b.indices, i < b.vertices.length

instance (b : VertexBuffers) : Decidable b.wf :=
  inferInstanceAs (Decidable (∀ i ∈ b.indices, i < b.vertices.length))

/-- Mesh primitive topologies (the render library's enum). -/
inductive PrimitiveTopology where
  | PointList
  | LineList
  | LineStrip
  | TriangleList
  | TriangleStrip
deriving DecidableEq, Repr

/-- The renderer-facing mesh (`bevy::Mesh` restricted to the attributes the
code writes): positions, colours, u32 indices, topology. -/
structure MeshT where
  positions : List (ℚ × ℚ × ℚ)
  colors : List (ℚ × ℚ × ℚ × ℚ)
  indices : List ℕ
  topology : PrimitiveTopology
deriving DecidableEq, Repr

/-- `Convert<Mesh> for (VertexBuffers, Vec2, Vec2)` (vertex_buffer.rs lines
32-57): offset (-size.x * origin.x, size.y * origin.y) added to the X and Y
of every vertex position with Z kept, colours and indices carried over,
triangle-list topology. -/
def convertToMesh (buffer : VertexBuffers) (size origin : ℚ × ℚ) : MeshT :=
  let offset : ℚ × ℚ := (-size.1 * origin.1, size.2 * origin.2)
  { positions := buffer.vertices.map fun v =>
      (v.position.1 + offset.1, v.position.2.1 + offset.2, v.position.2.2)
    colors := buffer.vertices.map Vertex.color
    indices := buffer.indices
    topology := .TriangleList }

/-- The origin selection (origin.rs lines 19-33). -/
inductive Origin where
  | BottomLeft
  | BottomRight
  | Center
  | TopLeft
  | TopRight
  | Custom (coord : ℚ × ℚ)
deriving DecidableEq, Repr

/-- `Origin::get_relative_offset` (origin.rs lines 52-57): the stored
coordinates for `Custom`, (0, 0) for every named variant. -/
def Origin.get_relative_offset : Origin → ℚ × ℚ
  | .Custom coord => coord
  | _ => (0, 0)

/-- An entity as seen by the origin-change reactor: handles into the Svg
and Mesh asset stores, the current `Origin` component and the stored
previous origin (`OriginState`). -/
structure OriginEntity where
  svgHandle : ℕ
  meshHandle : ℕ
  origin : Origin
  prevOrigin : Origin
deriving DecidableEq, Repr

/-- Body of `apply_origin_change_2d` / `apply_origin_change_3d` (origin.rs
lines 97-130) for one entity.  The Svg asset store is a partial map from
handles; `Assets::add` is modelled by appending to the mesh list, the fresh
handle being the previous length.  `Svg::tessellate` runs the external lyon
tessellators, so it is a parameter here; the reactor only depends on it
being called with the entity's `origin.get_relative_offset()`. -/
def applyOriginChange {S M : Type} (tessellate : S → ℚ × ℚ → M)
    (svgs : ℕ → Option S) (meshes : List M) (e : OriginEntity) :
    List M × OriginEntity :=
  if e.prevOrigin ≠ e.origin then
    match svgs e.svgHandle with
    | some svg =>
        (meshes ++ [tessellate svg e.origin.get_relative_offset],
         { e with meshHandle := meshes.length, prevOrigin := e.origin })
    | none => (meshes, e)
  else (meshes, e)

/-- Necessary part of the spec's Begin/End bracket invariant, as a scan:
`opn` records whether a `Begin` is still waiting for its `End`.  A `Begin`
while one is already open, or a dangling open `Begin` at the end of the
stream, violates the invariant that every `Begin` is followed by exactly
one `End` before the stream ends or another `Begin` starts. -/
def beginEndBalanced (opn : Bool) : List PathEvent → Bool
  | [] => !opn
  | .Begin _ :: rest => !opn && beginEndBalanced true rest
  | .End _ _ _ :: rest => beginEndBalanced false rest
  | _ :: rest => beginEndBalanced opn rest

/-- Number of `End` events in a stream. -/
def countEnds (evs : List PathEvent) : ℕ :=
  evs.countP fun e => e.isEnd

/-- Segments that draw (LineTo / CurveTo); these arm `needs_end`. -/
def isDraw : PathSegment → Bool
  | .LineTo _ _ => true
  | .CurveTo _ _ _ _ _ _ => true
  | _ => false

/-- The events the normalizer emits for a run of drawing segments starting
from previous point `prev` (transformed Line/Cubic events, threading the
previous point). -/
def drawEvents (sc prev : Point) : List PathSegment → List PathEvent
  | .LineTo x y :: rest =>
      PathEvent.transformed sc (.Line prev ⟨x, y⟩) :: drawEvents sc ⟨x, y⟩ rest
  | .CurveTo x1 y1 x2 y2 x y :: rest =>
      PathEvent.transformed sc (.Cubic prev ⟨x1, y1⟩ ⟨x2, y2⟩ ⟨x, y⟩) :: drawEvents sc ⟨x, y⟩ rest
  | _ => []

/-- The previous point after a run of drawing segments. -/
def drawLast (prev : Point) : List PathSegment → Point
  | .LineTo x y :: rest => drawLast ⟨x, y⟩ rest
  | .CurveTo _ _ _ _ x y :: rest => drawLast ⟨x, y⟩ rest
  | _ => prev

/-- The sign-correction scale fixes the origin. -/
theorem scalePoint_zero (sc : Point) : scalePoint sc ⟨0, 0⟩ = ⟨0, 0⟩ := by
  simp [scalePoint]

/-- A pending deferred event is emitted first, without consuming a segment
and, as in the Rust early return, without being transformed. -/
theorem pathConvRun_flush (sc : Point) (p f : Point) (ne : Bool) (e : PathEvent)
    (segs : List PathSegment) :
    pathConvRun sc ⟨p, f, ne, some e⟩ segs = e :: pathConvRun sc ⟨p, f, ne, none⟩ segs := by
  cases segs with
  | nil => rfl
  | cons sg rest => cases sg <;> rfl

/-- Drawing events never contain an `End`. -/
theorem drawEvents_not_end (sc : Point) :
    ∀ (ds : List PathSegment) (prev : Point), ∀ e ∈ drawEvents sc prev ds, e.isEnd = false := by
  intro ds
  induction ds with
  | nil => intro prev e he; simp [drawEvents] at he
  | cons sg tl ih =>
    intro prev e he
    cases sg with
    | MoveTo x y => simp [drawEvents] at he
    | ClosePath => simp [drawEvents] at he
    | LineTo x y =>
      rcases (List.mem_cons).1 he with h | h
      · subst h; rfl
      · exact ih ⟨x, y⟩ e h
    | CurveTo x1 y1 x2 y2 x y =>
      rcases (List.mem_cons).1 he with h | h
      · subst h; rfl
      · exact ih ⟨x, y⟩ e h

/-- Drawing events never contain a `Begin`. -/
theorem drawEvents_not_begin (sc : Point) :
    ∀ (ds : List PathSegment) (prev : Point), ∀ e ∈ drawEvents sc prev ds, e.isBegin = false := by
  intro ds
  induction ds with
  | nil => intro prev e he; simp [drawEvents] at he
  | cons sg tl ih =>
    intro prev e he
    cases sg with
    | MoveTo x y => simp [drawEvents] at he
    | ClosePath => simp [drawEvents] at he
    | LineTo x y =>
      rcases (List.mem_cons).1 he with h | h
      · subst h; rfl
      · exact ih ⟨x, y⟩ e h
    | CurveTo x1 y1 x2 y2 x y =>
      rcases (List.mem_cons).1 he with h | h
      · subst h; rfl
      · exact ih ⟨x, y⟩ e h

/-- Running the normalizer over a block of drawing segments emits exactly
the transformed Line/Cubic events, threads the previous point, arms
`needs_end` (when the block is nonempty), and leaves the first point
untouched. -/
theorem pathConvRun_draws (sc : Point) :
    ∀ (ds : List PathSegment), (∀ sg ∈ ds, isDraw sg = true) →
    ∀ (p f : Point) (ne : Bool) (rest : List PathSegment),
    pathConvRun sc ⟨p, f, ne, none⟩ (ds ++ rest) =
      drawEvents sc p ds ++
        pathConvRun sc ⟨drawLast p ds, f, ne || !ds.isEmpty, none⟩ rest := by
  intro ds
  induction ds with
  | nil => intro _ p f ne rest; simp [drawEvents, drawLast]
  | cons sg tl ih =>
    intro h p f ne rest
    have hsg : isDraw sg = true := h sg (List.mem_cons_self sg tl)
    have htl : ∀ x ∈ tl, isDraw x = true := fun x hx => h x (List.mem_cons_of_mem _ hx)
    cases sg with
    | MoveTo x y => simp [isDraw] at hsg
    | ClosePath => simp [isDraw] at hsg
    | LineTo x y =>
      show pathConvRun sc ⟨p, f, ne, none⟩ (.LineTo x y :: (tl ++ rest)) = _
      rw [pathConvRun]
      rw [ih htl ⟨x, y⟩ f true rest]
      simp [drawEvents, drawLast]
    | CurveTo x1 y1 x2 y2 x y =>
      show pathConvRun sc ⟨p, f, ne, none⟩ (.CurveTo x1 y1 x2 y2 x y :: (tl ++ rest)) = _
      rw [pathConvRun]
      rw [ih htl ⟨x, y⟩ f true rest]
      simp [drawEvents, drawLast]

/-- C5: for a subpath ending in an explicit ClosePath, the normalizer emits
exactly one End event for that subpath: the drawing segments preceding the
close contribute no End, the close contributes an End with close = true
whose first and last points are both the (transformed) subpath first point,
and the previous-point state of the continuation is reset to the subpath's
first point. -/
theorem c5_explicit_close (sc : Point) (st : PathConvState) (ds rest : List PathSegment)
    (hdef : st.deferred = none) (hds : ∀ sg ∈ ds, isDraw sg = true) :
    pathConvRun sc st (ds ++ .ClosePath :: rest) =
      drawEvents sc st.prev ds ++
        .End (scalePoint sc st.first) (scalePoint sc st.first) true ::
          pathConvRun sc ⟨st.first, st.first, false, none⟩ rest ∧
    (∀ e ∈ drawEvents sc st.prev ds, e.isEnd = false) := by
  obtain ⟨p, f, ne, d⟩ := st
  simp only at hdef
  subst hdef
  constructor
  · rw [pathConvRun_draws sc ds hds p f ne (.ClosePath :: rest)]
    rw [pathConvRun]
    simp [PathEvent.transformed]
  · exact drawEvents_not_end sc ds p

/-- Witness for C5 at a concrete single-line closed subpath. -/
theorem c5_explicit_close_witness :
    pathConvRun ⟨1, 1⟩ initState ([.LineTo 2 3] ++ .ClosePath :: []) =
      drawEvents ⟨1, 1⟩ ⟨0, 0⟩ [.LineTo 2 3] ++
        .End (scalePoint ⟨1, 1⟩ ⟨0, 0⟩) (scalePoint ⟨1, 1⟩ ⟨0, 0⟩) true ::
          pathConvRun ⟨1, 1⟩ ⟨⟨0, 0⟩, ⟨0, 0⟩, false, none⟩ [] ∧
    (∀ e ∈ drawEvents ⟨1, 1⟩ ⟨0, 0⟩ [.LineTo 2 3], e.isEnd = false) :=
  c5_explicit_close ⟨1, 1⟩ initState [.LineTo 2 3] [] rfl (by decide)

/-- C10: a segment stream that begins with drawing commands and no MoveTo
uses the default initial point (0,0) as the from point of the first event
and as the subpath's first point, so the subpath's End (at stream end or at
the next MoveTo) carries first = (0,0). -/
theorem c10_default_initial_point (sc : Point) :
    (∀ (x y : ℚ) (rest : List PathSegment),
      pathConvRun sc initState (.LineTo x y :: rest) =
        .Line ⟨0, 0⟩ (scalePoint sc ⟨x, y⟩) ::
          pathConvRun sc ⟨⟨x, y⟩, ⟨0, 0⟩, true, none⟩ rest) ∧
    (∀ (x1 y1 x2 y2 x y : ℚ) (rest : List PathSegment),
      pathConvRun sc initState (.CurveTo x1 y1 x2 y2 x y :: rest) =
        .Cubic ⟨0, 0⟩ (scalePoint sc ⟨x1, y1⟩) (scalePoint sc ⟨x2, y2⟩) (scalePoint sc ⟨x, y⟩) ::
          pathConvRun sc ⟨⟨x, y⟩, ⟨0, 0⟩, true, none⟩ rest) ∧
    (∀ ds : List PathSegment, (∀ sg ∈ ds, isDraw sg = true) → ds ≠ [] →
      pathConvRun sc initState ds =
        drawEvents sc ⟨0, 0⟩ ds ++
          [.End (scalePoint sc (drawLast ⟨0, 0⟩ ds)) ⟨0, 0⟩ false]) ∧
    (∀ (ds : List PathSegment) (x y : ℚ) (rest : List PathSegment),
      (∀ sg ∈ ds, isDraw sg = true) → ds ≠ [] →
      pathConvRun sc initState (ds ++ .MoveTo x y :: rest) =
        drawEvents sc ⟨0, 0⟩ ds ++
          .End (scalePoint sc (drawLast ⟨0, 0⟩ ds)) ⟨0, 0⟩ false ::
            .Begin ⟨x, y⟩ ::
              pathConvRun sc ⟨⟨x, y⟩, ⟨x, y⟩, false, none⟩ rest) := by
  refine ⟨?_, ?_, ?_, ?_⟩
  · intro x y rest
    rw [pathConvRun]
    simp [initState, PathEvent.transformed, scalePoint_zero]
  · intro x1 y1 x2 y2 x y rest
    rw [pathConvRun]
    simp [initState, PathEvent.transformed, scalePoint_zero]
  · intro ds hds hne
    have h := pathConvRun_draws sc ds hds ⟨0, 0⟩ ⟨0, 0⟩ false []
    rw [List.append_nil] at h
    rw [show initState = (⟨⟨0, 0⟩, ⟨0, 0⟩, false, none⟩ : PathConvState) from rfl, h]
    cases ds with
    | nil => exact absurd rfl hne
    | cons sg tl =>
      rw [pathConvRun]
      simp [PathEvent.transformed, scalePoint_zero]
  · intro ds x y rest hds hne
    have h := pathConvRun_draws sc ds hds ⟨0, 0⟩ ⟨0, 0⟩ false (.MoveTo x y :: rest)
    rw [show initState = (⟨⟨0, 0⟩, ⟨0, 0⟩, false, none⟩ : PathConvState) from rfl, h]
    cases ds with
    | nil => exact absurd rfl hne
    | cons sg tl =>
      rw [pathConvRun]
      simp only [Bool.false_or, List.isEmpty_cons, Bool.not_false, if_true]
      rw [pathConvRun_flush]
      simp [PathEvent.transformed, scalePoint_zero]

/-- Witness for C10 at a concrete stream starting with a LineTo and ending
in a second subpath's MoveTo. -/
theorem c10_default_initial_point_witness :
    pathConvRun ⟨1, 1⟩ initState ([.LineTo 5 7] ++ .MoveTo 2 2 :: []) =
      drawEvents ⟨1, 1⟩ ⟨0, 0⟩ [.LineTo 5 7] ++
        .End (scalePoint ⟨1, 1⟩ (drawLast ⟨0, 0⟩ [.LineTo 5 7])) ⟨0, 0⟩ false ::
          .Begin ⟨2, 2⟩ ::
            pathConvRun ⟨1, 1⟩ ⟨⟨2, 2⟩, ⟨2, 2⟩, false, none⟩ [] :=
  (c10_default_initial_point ⟨1, 1⟩).2.2.2 [.LineTo 5 7] 2 2 [] (by decide) (by decide)

/-- C3 is violated by the code: on back-to-back MoveTo commands the
normalizer emits two Begin events with no End between them and no End at
all (the non-deferred MoveTo arm never arms `needs_end`), so the claimed
invariant that every Begin is followed by exactly one End before the
stream ends or another Begin starts fails. -/
theorem c3_begin_end_invariant_violated :
    pathConvRun ⟨1, 1⟩ initState [.MoveTo 1 2, .MoveTo 3 4] =
      [.Begin ⟨1, 2⟩, .Begin ⟨3, 4⟩] ∧
    beginEndBalanced false (pathConvRun ⟨1, 1⟩ initState [.MoveTo 1 2, .MoveTo 3 4]) = false := by
  constructor
  · simp [pathConvRun, initState, PathEvent.transformed, scalePoint]
  · simp [pathConvRun, initState, PathEvent.transformed, scalePoint, beginEndBalanced]

/-- C4 is violated by the code: a subpath consisting of a lone MoveTo (with
no explicit close anywhere in the stream) produces a Begin and zero End
events, not exactly one implicit End. -/
theorem c4_implicit_end_missing :
    pathConvRun ⟨1, 1⟩ initState [.MoveTo 1 2] = [.Begin ⟨1, 2⟩] ∧
    countEnds (pathConvRun ⟨1, 1⟩ initState [.MoveTo 1 2]) = 0 := by
  constructor
  · simp [pathConvRun, initState, PathEvent.transformed, scalePoint]
  · simp [pathConvRun, initState, PathEvent.transformed, scalePoint, countEnds,
      List.countP, List.countP.go, PathEvent.isEnd]

/-- C6 is violated by the code: with a local transform whose `a` component
is negative, every directly returned event is scaled by (-1, 1), but the
deferred Begin produced when a MoveTo closes the previous subpath is
returned through the early deferred path without the transform, so its X
coordinate keeps its sign. -/
theorem c6_deferred_begin_untransformed :
    pathConvIterScale ⟨-1, 0, 0, 1, 0, 0⟩ = ⟨-1, 1⟩ ∧
    pathConvRun (pathConvIterScale ⟨-1, 0, 0, 1, 0, 0⟩) initState
        [.MoveTo 1 2, .LineTo 3 4, .MoveTo 5 6] =
      [.Begin ⟨-1, 2⟩, .Line ⟨0, 0⟩ ⟨-3, 4⟩, .End ⟨-3, 4⟩ ⟨-1, 2⟩ false, .Begin ⟨5, 6⟩] ∧
    PathEvent.transformed ⟨-1, 1⟩ (.Begin ⟨5, 6⟩) ≠ .Begin ⟨5, 6⟩ := by
  refine ⟨by norm_num [pathConvIterScale], ?_, ?_⟩
  · norm_num [pathConvRun, initState, PathEvent.transformed, scalePoint, pathConvIterScale]
  · intro h
    rw [PathEvent.transformed] at h
    have hx : scalePoint ⟨-1, 1⟩ ⟨5, 6⟩ = ⟨5, 6⟩ := by
      injection h
    rw [scalePoint] at hx
    have : (-1 : ℚ) * 5 = 5 := congrArg Point.x hx
    norm_num at this

/-- The extend loop, started at the accumulator's vertex count, computes
the spec-side merge. -/
theorem extendLoop_eq_mergedSpec :
    ∀ (bufs : List VertexBuffers) (acc : VertexBuffers),
    extendLoop acc.vertices.length acc bufs = mergedSpec acc bufs := by
  intro bufs
  induction bufs with
  | nil => intro acc; simp [extendLoop, mergedSpec, shiftedIndices]
  | cons b rest ih =>
    intro acc
    rw [extendLoop]
    have hlen : acc.vertices.length + b.vertices.length =
        (acc.vertices ++ b.vertices).length := (List.length_append ..).symm
    rw [hlen]
    have := ih ⟨acc.vertices ++ b.vertices,
      acc.indices ++ b.indices.map (· + acc.vertices.length)⟩
    simp only at this
    rw [this]
    simp [mergedSpec, shiftedIndices, List.append_assoc, List.length_append]

/-- `extend` agrees with folding `extend_one` over the buffer list. -/
theorem extend_eq_foldl :
    ∀ (bufs : List VertexBuffers) (acc : VertexBuffers),
    VertexBuffers.extend acc bufs = List.foldl VertexBuffers.extend_one acc bufs := by
  intro bufs
  induction bufs with
  | nil => intro acc; rfl
  | cons b rest ih =>
    intro acc
    show extendLoop acc.vertices.length acc (b :: rest) = _
    rw [extendLoop]
    have hone : (⟨acc.vertices ++ b.vertices,
        acc.indices ++ b.indices.map (· + acc.vertices.length)⟩ : VertexBuffers) =
        VertexBuffers.extend_one acc b := rfl
    have hlen : acc.vertices.length + b.vertices.length =
        (VertexBuffers.extend_one acc b).vertices.length := by
      simp [VertexBuffers.extend_one]
    rw [hone, hlen]
    exact ih (VertexBuffers.extend_one acc b)

/-- Shifted indices stay below the shift base plus the total vertex count
of the shifted buffers, provided each buffer is well-formed. -/
theorem shiftedIndices_bound :
    ∀ (bufs : List VertexBuffers) (offset : ℕ), (∀ b ∈ bufs, b.wf) →
    ∀ i ∈ shiftedIndices offset bufs,
      i < offset + ((bufs.map fun b => b.vertices.length).sum) := by
  intro bufs
  induction bufs with
  | nil => intro offset _ i hi; simp [shiftedIndices] at hi
  | cons b rest ih =>
    intro offset h i hi
    rcases List.mem_append.1 hi with hb | hr
    · rcases List.mem_map.1 hb with ⟨j, hj, rfl⟩
      have := h b (List.mem_cons_self b rest) j hj
      simp only [List.map_cons, List.sum_cons]
      omega
    · have := ih (offset + b.vertices.length)
        (fun x hx => h x (List.mem_cons_of_mem _ hx)) i hr
      simp only [List.map_cons, List.sum_cons]
      omega

/-- The merged vertex count is the accumulator's plus the sum of the
sources'. -/
theorem mergedSpec_vertices_length (acc : VertexBuffers) (bufs : List VertexBuffers) :
    (mergedSpec acc bufs).vertices.length =
      acc.vertices.length + ((bufs.map fun b => b.vertices.length).sum) := by
  simp only [mergedSpec, List.length_append, List.length_flatten, List.map_map]
  rfl

/-- C1: `BufferExt::extend` produces the spec-side merge (concatenated
vertices, index sequences shifted by the running vertex-count offset),
agrees with successive `extend_one` merges, and preserves the index bound:
if the accumulator's and every source buffer's indices are below their own
vertex counts, every merged index is below the merged vertex count. -/
theorem c1_buffer_extend (acc : VertexBuffers) (bufs : List VertexBuffers)
    (hacc : acc.wf) (hbufs : ∀ b ∈ bufs, b.wf) :
    VertexBuffers.extend acc bufs = mergedSpec acc bufs ∧
    VertexBuffers.extend acc bufs = List.foldl VertexBuffers.extend_one acc bufs ∧
    (VertexBuffers.extend acc bufs).wf := by
  refine ⟨extendLoop_eq_mergedSpec bufs acc, extend_eq_foldl bufs acc, ?_⟩
  rw [VertexBuffers.extend]
  rw [show extendLoop acc.vertices.length acc bufs = mergedSpec acc bufs from
    extendLoop_eq_mergedSpec bufs acc]
  intro i hi
  rw [mergedSpec_vertices_length]
  rcases List.mem_append.1 hi with ha | hs
  · have := hacc i ha
    omega
  · exact shiftedIndices_bound bufs acc.vertices.length hbufs i hs

/-- Witness for C1 at two concrete well-formed buffers. -/
theorem c1_buffer_extend_witness :
    VertexBuffers.extend ⟨[⟨(0, 0, 0), (0, 0, 0, 0)⟩], [0]⟩
        [⟨[⟨(1, 0, 0), (0, 0, 0, 0)⟩, ⟨(2, 0, 0), (0, 0, 0, 0)⟩], [1, 0]⟩] =
      mergedSpec ⟨[⟨(0, 0, 0), (0, 0, 0, 0)⟩], [0]⟩
        [⟨[⟨(1, 0, 0), (0, 0, 0, 0)⟩, ⟨(2, 0, 0), (0, 0, 0, 0)⟩], [1, 0]⟩] ∧
    VertexBuffers.extend ⟨[⟨(0, 0, 0), (0, 0, 0, 0)⟩], [0]⟩
        [⟨[⟨(1, 0, 0), (0, 0, 0, 0)⟩, ⟨(2, 0, 0), (0, 0, 0, 0)⟩], [1, 0]⟩] =
      List.foldl VertexBuffers.extend_one ⟨[⟨(0, 0, 0), (0, 0, 0, 0)⟩], [0]⟩
        [⟨[⟨(1, 0, 0), (0, 0, 0, 0)⟩, ⟨(2, 0, 0), (0, 0, 0, 0)⟩], [1, 0]⟩] ∧
    (VertexBuffers.extend ⟨[⟨(0, 0, 0), (0, 0, 0, 0)⟩], [0]⟩
        [⟨[⟨(1, 0, 0), (0, 0, 0, 0)⟩, ⟨(2, 0, 0), (0, 0, 0, 0)⟩], [1, 0]⟩]).wf :=
  c1_buffer_extend ⟨[⟨(0, 0, 0), (0, 0, 0, 0)⟩], [0]⟩
    [⟨[⟨(1, 0, 0), (0, 0, 0, 0)⟩, ⟨(2, 0, 0), (0, 0, 0, 0)⟩], [1, 0]⟩]
    (by decide) (by decide)

/-- C2: converting a buffer with a size and a relative origin adds the
offset (-size.x * rel.x, size.y * rel.y) to every vertex's X and Y with Z
unchanged, carries colours and indices over unchanged with triangle-list
topology; the relative offset is (0,0) for every named Origin variant and
the stored coordinates for Custom, and Custom (1, 0) on a 100x50 size
offsets every vertex by (-100, 0). -/
theorem c2_mesh_convert (buffer : VertexBuffers) (size rel : ℚ × ℚ) :
    (convertToMesh buffer size rel).positions =
      buffer.vertices.map (fun v =>
        (v.position.1 + -size.1 * rel.1, v.position.2.1 + size.2 * rel.2, v.position.2.2)) ∧
    (convertToMesh buffer size rel).colors = buffer.vertices.map Vertex.color ∧
    (convertToMesh buffer size rel).indices = buffer.indices ∧
    (convertToMesh buffer size rel).topology = .TriangleList ∧
    Origin.get_relative_offset .TopLeft = (0, 0) ∧
    Origin.get_relative_offset .TopRight = (0, 0) ∧
    Origin.get_relative_offset .BottomLeft = (0, 0) ∧
    Origin.get_relative_offset .BottomRight = (0, 0) ∧
    Origin.get_relative_offset .Center = (0, 0) ∧
    (∀ c : ℚ × ℚ, Origin.get_relative_offset (.Custom c) = c) ∧
    (convertToMesh buffer (100, 50) (Origin.get_relative_offset (.Custom (1, 0)))).positions =
      buffer.vertices.map (fun v => (v.position.1 - 100, v.position.2.1, v.position.2.2)) := by
  refine ⟨rfl, rfl, rfl, rfl, rfl, rfl, rfl, rfl, rfl, fun c => rfl, ?_⟩
  simp only [convertToMesh, Origin.get_relative_offset]
  congr 1
  funext v
  simp only [mul_one, mul_zero, add_zero, ← sub_eq_add_neg]

/-- C9: the origin-change reactor leaves an entity and the mesh store
untouched when the current origin equals the stored previous origin, or
when the Svg asset lookup fails (so the recompute is retried later); on a
successful lookup it appends the freshly tessellated mesh, points the
entity's mesh handle at it, and records the current origin as previous. -/
theorem c9_origin_change {S M : Type} (tessellate : S → ℚ × ℚ → M)
    (svgs : ℕ → Option S) (meshes : List M) (e : OriginEntity) :
    (e.prevOrigin = e.origin →
      applyOriginChange tessellate svgs meshes e = (meshes, e)) ∧
    (e.prevOrigin ≠ e.origin → svgs e.svgHandle = none →
      applyOriginChange tessellate svgs meshes e = (meshes, e)) ∧
    (∀ svg, e.prevOrigin ≠ e.origin → svgs e.svgHandle = some svg →
      applyOriginChange tessellate svgs meshes e =
        (meshes ++ [tessellate svg e.origin.get_relative_offset],
         { e with meshHandle := meshes.length, prevOrigin := e.origin }) ∧
      (meshes ++ [tessellate svg e.origin.get_relative_offset])[meshes.length]? =
        some (tessellate svg e.origin.get_relative_offset)) := by
  refine ⟨?_, ?_, ?_⟩
  · intro h
    simp [applyOriginChange, h]
  · intro h hn
    simp [applyOriginChange, h, hn]
  · intro svg h hs
    refine ⟨?_, ?_⟩
    · simp [applyOriginChange, h, hs]
    · exact List.getElem?_concat_length meshes _

/-- Witness for C9 at a concrete entity with a changed origin and a
present asset. -/
theorem c9_origin_change_witness :
    applyOriginChange (fun (s : ℕ) (_ : ℚ × ℚ) => s) (fun _ => some 7) []
        ⟨0, 0, .Center, .TopLeft⟩ =
      ([] ++ [(fun (s : ℕ) (_ : ℚ × ℚ) => s) 7
          (Origin.get_relative_offset (OriginEntity.mk 0 0 .Center .TopLeft).origin)],
       { OriginEntity.mk 0 0 .Center .TopLeft with
          meshHandle := List.length ([] : List ℕ), prevOrigin := Origin.Center }) ∧
    ([] ++ [(fun (s : ℕ) (_ : ℚ × ℚ) => s) 7
        (Origin.get_relative_offset (OriginEntity.mk 0 0 .Center .TopLeft).origin)])[List.length ([] : List ℕ)]? =
      some ((fun (s : ℕ) (_ : ℚ × ℚ) => s) 7
        (Origin.get_relative_offset (OriginEntity.mk 0 0 .Center .TopLeft).origin)) :=
  (c9_origin_change (fun (s : ℕ) (_ : ℚ × ℚ) => s) (fun _ => some 7) []
      ⟨0, 0, .Center, .TopLeft⟩).2.2 7 (by decide) rfl

mutual
/-- The document traversal produces, in order, exactly the per-path
descriptor lists of the preorder path nodes. -/
theorem collect_eq_join (parent : Affine2) (n : UNode) :
    collectDescriptors parent n =
      ((pathsInPreorder parent n).map fun tp => pathDescriptors tp.1 tp.2).flatten := by
  cases n with
  | path p => simp [collectDescriptors, pathsInPreorder]
  | group t cs =>
    rw [collectDescriptors, pathsInPreorder]
    exact collectList_eq_join (Affine2.mul parent t) cs

/-- Child-list version of `collect_eq_join`. -/
theorem collectList_eq_join (parent : Affine2) (cs : List UNode) :
    collectDescriptorsList parent cs =
      ((pathsInPreorderList parent cs).map fun tp => pathDescriptors tp.1 tp.2).flatten := by
  cases cs with
  | nil => simp [collectDescriptorsList, pathsInPreorderList]
  | cons n rest =>
    rw [collectDescriptorsList, pathsInPreorderList]
    rw [List.map_append, List.flatten_append]
    rw [collect_eq_join parent n, collectList_eq_join parent rest]
end

/-- Every descriptor a path node produces carries the absolute-value
matrix of the node's composed transform and the sign-corrected event
sequence of the node's local data. -/
theorem mem_pathDescriptors (t : Affine2) (p : UPath) (d : PathDescriptor)
    (hd : d ∈ pathDescriptors t p) :
    d.abs_transform = absMat4 t ∧
    d.segments = pathConvRun (pathConvIterScale p.transform) initState p.data := by
  simp only [pathDescriptors] at hd
  rcases List.mem_append.1 hd with h | h
  · cases hf : p.fill with
    | none => rw [hf] at h; simp at h
    | some fill =>
      rw [hf] at h
      simp only [List.mem_singleton] at h
      subst h
      exact ⟨rfl, rfl⟩
  · cases hs : p.stroke with
    | none => rw [hs] at h; simp at h
    | some stroke =>
      rw [hs] at h
      simp only [List.mem_singleton] at h
      subst h
      exact ⟨rfl, rfl⟩

/-- C7: every descriptor built by the document traversal belongs to some
preorder path node whose composed absolute transform `t` it embeds as a 3D
affine matrix with identity Z, the diagonal components replaced by their
absolute values and the shear and translation components carried over
unchanged; its segments are the normalizer's output under the per-local
transform sign correction, independently of the absolute transform. -/
theorem c7_abs_transform (parent : Affine2) (root : UNode) (d : PathDescriptor)
    (hd : d ∈ collectDescriptors parent root) :
    ∃ tp ∈ pathsInPreorder parent root,
      d.abs_transform = absMat4 tp.1 ∧
      d.abs_transform.x_axis = ⟨|tp.1.a|, tp.1.b, 0, 0⟩ ∧
      d.abs_transform.y_axis = ⟨tp.1.c, |tp.1.d|, 0, 0⟩ ∧
      d.abs_transform.z_axis = ⟨0, 0, 1, 0⟩ ∧
      d.abs_transform.w_axis = ⟨tp.1.e, tp.1.f, 0, 1⟩ ∧
      d.segments = pathConvRun (pathConvIterScale tp.2.transform) initState tp.2.data := by
  rw [collect_eq_join] at hd
  rcases List.mem_flatten.1 hd with ⟨l, hl, hdl⟩
  rcases List.mem_map.1 hl with ⟨tp, htp, rfl⟩
  obtain ⟨habs, hsegs⟩ := mem_pathDescriptors tp.1 tp.2 d hdl
  exact ⟨tp, htp, habs, by rw [habs]; rfl, by rw [habs]; rfl, by rw [habs]; rfl,
    by rw [habs]; rfl, hsegs⟩

/-- Witness for C7 at a one-path document. -/
theorem c7_abs_transform_witness :
    ∃ tp ∈ pathsInPreorder Affine2.id
        (.path ⟨Affine2.id, some ⟨.Color 1 2 3, 255⟩, none, []⟩),
      (⟨[], absMat4 (Affine2.mul Affine2.id Affine2.id), (1, 2, 3, 255), .Fill⟩ :
          PathDescriptor).abs_transform = absMat4 tp.1 ∧
      (⟨[], absMat4 (Affine2.mul Affine2.id Affine2.id), (1, 2, 3, 255), .Fill⟩ :
          PathDescriptor).abs_transform.x_axis = ⟨|tp.1.a|, tp.1.b, 0, 0⟩ ∧
      (⟨[], absMat4 (Affine2.mul Affine2.id Affine2.id), (1, 2, 3, 255), .Fill⟩ :
          PathDescriptor).abs_transform.y_axis = ⟨tp.1.c, |tp.1.d|, 0, 0⟩ ∧
      (⟨[], absMat4 (Affine2.mul Affine2.id Affine2.id), (1, 2, 3, 255), .Fill⟩ :
          PathDescriptor).abs_transform.z_axis = ⟨0, 0, 1, 0⟩ ∧
      (⟨[], absMat4 (Affine2.mul Affine2.id Affine2.id), (1, 2, 3, 255), .Fill⟩ :
          PathDescriptor).abs_transform.w_axis = ⟨tp.1.e, tp.1.f, 0, 1⟩ ∧
      (⟨[], absMat4 (Affine2.mul Affine2.id Affine2.id), (1, 2, 3, 255), .Fill⟩ :
          PathDescriptor).segments =
        pathConvRun (pathConvIterScale tp.2.transform) initState tp.2.data :=
  c7_abs_transform Affine2.id (.path ⟨Affine2.id, some ⟨.Color 1 2 3, 255⟩, none, []⟩)
    ⟨[], absMat4 (Affine2.mul Affine2.id Affine2.id), (1, 2, 3, 255), .Fill⟩
    (by simp [collectDescriptors, pathDescriptors, pathConvRun, initState, paintColor])

/-- C8: the descriptor list follows document traversal order (it is the
concatenation, in preorder, of the per-path descriptor lists), and per
path node there is one Fill descriptor iff the path has a fill, one Stroke
descriptor iff it has a stroke, none at all when it has neither, and the
fill descriptor precedes the stroke descriptor when both exist. -/
theorem c8_descriptor_kinds :
    (∀ (parent : Affine2) (root : UNode),
      collectDescriptors parent root =
        ((pathsInPreorder parent root).map fun tp => pathDescriptors tp.1 tp.2).flatten) ∧
    (∀ (t : Affine2) (p : UPath),
      ((pathDescriptors t p).countP fun d => d.draw_type.isFill) =
        (if p.fill.isSome then 1 else 0) ∧
      ((pathDescriptors t p).countP fun d => d.draw_type.isStroke) =
        (if p.stroke.isSome then 1 else 0) ∧
      (p.fill = none → p.stroke = none → pathDescriptors t p = []) ∧
      (∀ fl st, p.fill = some fl → p.stroke = some st →
        ∃ fd sd, pathDescriptors t p = [fd, sd] ∧
          fd.draw_type = .Fill ∧ sd.draw_type.isStroke = true)) := by
  refine ⟨collect_eq_join, ?_⟩
  intro t p
  refine ⟨?_, ?_, ?_, ?_⟩
  · cases hf : p.fill <;> cases hs : p.stroke <;>
      simp [pathDescriptors, hf, hs, strokeConvert, DrawType.isFill, DrawType.isStroke]
  · cases hf : p.fill <;> cases hs : p.stroke <;>
      simp [pathDescriptors, hf, hs, strokeConvert, DrawType.isFill, DrawType.isStroke]
  · intro hf hs
    simp [pathDescriptors, hf, hs]
  · intro fl st hf hs
    refine ⟨⟨pathConvRun (pathConvIterScale p.transform) initState p.data, absMat4 t,
        paintColor fl.paint fl.opacity, .Fill⟩,
      ⟨pathConvRun (pathConvIterScale p.transform) initState p.data, absMat4 t,
        (strokeConvert st).1, (strokeConvert st).2⟩, ?_, rfl, rfl⟩
    simp [pathDescriptors, hf, hs]

/-- Witness for C8 at a path with both a fill and a stroke. -/
theorem c8_descriptor_kinds_witness :
    ∃ fd sd, pathDescriptors Affine2.id
        ⟨Affine2.id, some ⟨.Color 1 2 3, 255⟩,
         some ⟨.Color 4 5 6, 255, 2, .Butt, .Miter⟩, []⟩ = [fd, sd] ∧
      fd.draw_type = .Fill ∧ sd.draw_type.isStroke = true :=
  (c8_descriptor_kinds.2 Affine2.id
      ⟨Affine2.id, some ⟨.Color 1 2 3, 255⟩,
       some ⟨.Color 4 5 6, 255, 2, .Butt, .Miter⟩, []⟩).2.2.2
    ⟨.Color 1 2 3, 255⟩ ⟨.Color 4 5 6, 255, 2, .Butt, .Miter⟩ rfl rfl

end BevySvg
